import Mathlib

/-!
Verification development for `orbprofile.c` (orbuculum profiling tool).

The C program records function-crossing transitions ("edges") from an ETM
instruction trace, reconstructs the call tree from the edge sequence
(`_traverse` driven by `_outputProfile`), and emits a Callgrind profile
(`_dumpProfile`) and a Graphviz dot call graph (`_outputDot`).

This file embeds the relevant parts of the source shallowly:
machine integers are `Nat` with explicit reduction modulo `2^64` / `2^32`
where the C code performs `uint64_t` / `uint32_t` arithmetic, array reads
are `List.getElem?` so that an out-of-bounds read is an observable `oob`
outcome, and the C recursion/loops are given an explicit fuel parameter
(an artifact of the embedding, not of the C code: the fuel is a bound on
the number of recursive calls and loop iterations; all concrete runs in
this file use visibly sufficient fuel, and the universally quantified
theorems hold for every fuel value).
-/

namespace Orb

/-- `2^64`, the modulus of C `uint64_t` arithmetic. -/
def W64 : Nat := 2 ^ 64

/-- `2^32`, the modulus of C `uint32_t` arithmetic. -/
def W32 : Nat := 2 ^ 32

/-- C `uint64_t` addition `a + b`. -/
def wadd (a b : Nat) : Nat := (a + b) % W64

/-- C `uint64_t` subtraction `a - b` (wraps on underflow). -/
def wsub (a b : Nat) : Nat := (a % W64 + W64 - b % W64) % W64

/-- `struct edge` of orbprofile.c: one observed function-crossing
transition.  Field `in` of the C struct is named `inFlag` here (`in` is a
Lean keyword); the C struct also carries an `int line` field that is never
assigned by `_etmCB` and never read by any emitter, so it is omitted.
The C code compares the string fields by pointer; the symbol resolver
interns its strings, so pointer equality is modelled as string equality. -/
structure Edge where
  tstamp : Nat
  srcFile : String
  srcFn : String
  dstFile : String
  dstFn : String
  src : Nat
  dst : Nat
  inFlag : Bool
deriving DecidableEq

/-- `struct subcalls` of orbprofile.c, in the C field order
`(src, dst, myCost, total)`: `src`/`dst` are the caller/callee addresses
as recorded by `_traverse`, `total` the inclusive cost, `myCost` the
exclusive (self) cost. -/
structure Subcall where
  src : Nat
  dst : Nat
  myCost : Nat
  total : Nat
deriving DecidableEq

/-- Outcome of a `_traverse` call: `ok psn ret subs` is a normal return
(`psn` the updated `r->psn`, `ret` the C return value, `subs` the
subcalls appended to `r->sub` during the call, in emission order);
`oob subs` marks an out-of-bounds read of `r->calls` (undefined behaviour
in the C program) after emitting `subs`; `out subs` is fuel exhaustion
(an artifact of the embedding). -/
inductive TR where
  | ok (psn : Nat) (ret : Nat) (subs : List Subcall) : TR
  | oob (subs : List Subcall) : TR
  | out (subs : List Subcall) : TR
deriving DecidableEq

/-- The `while ( r->calls[r->psn].in )` loop of `_traverse`
(orbprofile.c:535-558) together with the subsequent emission of the
subcall record.  Arguments: `sp` is `startPoint`, `psn` the current
`r->psn`, `cc` the accumulated `childCost`, `acc` the subcalls emitted so
far by this call.  `startPoint` is declared `uint32_t` in the source
while `r->psn` is `uint64_t`, so a child entered at position `psn`
records `startPoint = psn % 2^32` — hence `psn % W32` at the recursive
call.  The recursive child invocation `_traverse(r, layer+1)` is
inlined: the child is entered only after this loop read
`calls[psn].in = true`, so the child's `layer == 0 && !in` branch cannot
fire and the child's behaviour is exactly narrowing `startPoint`, `psn++`
and this loop (see `traverse_succ_layer` below; `layer` itself is
`uint32_t` in the source, but it is only ever compared against `0` and a
child re-reading `calls[psn].in = true` behaves identically at any
layer, so its wrap is unobservable).  The C comparisons `r->psn >=
r->cdCount - 2` and the loop bound use `uint64_t` arithmetic, hence
`wsub es.length 2`. -/
def tloop (es : List Edge) : Nat → Nat → Nat → Nat → Nat → List Subcall → TR
  | 0, _, _, _, _, acc => TR.out acc
  | fuel + 1, layer, sp, psn, cc, acc =>
    match es[psn]? with
    | none => TR.oob acc
    | some e =>
      if e.inFlag then
        if wsub es.length 2 ≤ psn then
          TR.ok psn 0 acc
        else
          match tloop es fuel (layer + 1) (psn % W32) (psn + 1) 0 [] with
          | TR.ok psn' ret subs => tloop es fuel layer sp psn' (wadd cc ret) (acc ++ subs)
          | TR.oob subs => TR.oob (acc ++ subs)
          | TR.out subs => TR.out (acc ++ subs)
      else
        match es[sp]? with
        | none => TR.oob acc
        | some e0 =>
          TR.ok (psn + 1) (wsub e.tstamp e0.tstamp)
            (acc ++ [⟨e.dst, e.src, wsub (wsub e.tstamp e0.tstamp) cc, wsub e.tstamp e0.tstamp⟩])

/-- `_traverse` (orbprofile.c:514-559).  `uint32_t startPoint = r->psn`
at entry narrows the `uint64_t` position to 32 bits, hence `psn % W32`;
for `layer = 0` the stray-close branch reads `calls[psn]` first.  The
emitted record stores `src := calls[psn].dst` and `dst := calls[psn].src`
(the caller/callee swap on the closing edge), `total := calls[psn].tstamp
- calls[startPoint].tstamp` and `myCost := total - childCost`, both in
`uint64_t` arithmetic. -/
def traverse (es : List Edge) (fuel layer psn : Nat) : TR :=
  match fuel with
  | 0 => TR.out []
  | f + 1 =>
    if layer = 0 then
      match es[psn]? with
      | none => TR.oob []
      | some e =>
        if e.inFlag then tloop es f layer (psn % W32) (psn + 1) 0 []
        else TR.ok (psn + 1) 0 []
    else tloop es f layer (psn % W32) (psn + 1) 0 []

/-- Outcome of the driver loop of `_outputProfile`: final `r->psn` and the
full `r->sub` list, or an out-of-bounds read / fuel exhaustion marker. -/
inductive DR where
  | ok (psn : Nat) (subs : List Subcall) : DR
  | oob (subs : List Subcall) : DR
  | out (subs : List Subcall) : DR
deriving DecidableEq

/-- The driver loop `while ( r->psn < r->cdCount - 2 ) { _traverse(r, 0); }`
of `_outputProfile` (orbprofile.c:590-593).  The loop bound is computed in
`uint64_t` arithmetic: for `cdCount < 2` the bound `cdCount - 2` wraps. -/
def driver (es : List Edge) : Nat → Nat → List Subcall → DR
  | 0, _, acc => DR.out acc
  | fuel + 1, psn, acc =>
    if psn < wsub es.length 2 then
      match traverse es fuel 0 psn with
      | TR.ok psn' _ subs => driver es fuel psn' (acc ++ subs)
      | TR.oob subs => DR.oob (acc ++ subs)
      | TR.out subs => DR.out (acc ++ subs)
    else DR.ok psn acc

/-- The subcall-producing part of `_outputProfile` (orbprofile.c:561-599):
`r->sub` is cleared, `r->subPsn = 0`, `r->psn = 0`, then the driver loop
runs over the recorded edge sequence. -/
def outputProfile (es : List Edge) (fuel : Nat) : DR := driver es fuel 0 []

/-- The subcall list carried by a driver outcome. -/
def drSubs : DR → List Subcall
  | DR.ok _ subs => subs
  | DR.oob subs => subs
  | DR.out subs => subs

/-- Scenario S1 of the spec: edges
`[{t=100, src=A, dst=B, is_entry=true}, {t=200, src=B, dst=A, is_entry=false}]`
with addresses `A = 10`, `B = 20`. -/
def s1Edges : List Edge :=
  [⟨100, "fA", "A", "fB", "B", 10, 20, true⟩,
   ⟨200, "fB", "B", "fA", "A", 20, 10, false⟩]

/-- Scenario S2 of the spec: edges
`[{t=0, A→B, in}, {t=10, B→C, in}, {t=30, C→B, out}, {t=40, B→A, out}]`
with addresses `A = 1`, `B = 2`, `C = 3`. -/
def s2Edges : List Edge :=
  [⟨0, "fA", "A", "fB", "B", 1, 2, true⟩,
   ⟨10, "fB", "B", "fC", "C", 2, 3, true⟩,
   ⟨30, "fC", "C", "fB", "B", 3, 2, false⟩,
   ⟨40, "fB", "B", "fA", "A", 2, 1, false⟩]

/-- A window with a single recorded edge (`cdCount = 1`): one call-in with
no matching close inside the window. -/
def oneEdge : List Edge := [⟨100, "fA", "A", "fB", "B", 10, 20, true⟩]

/-- Timestamp of the edge at index `i`, `0` past the end (used only in
statements about in-bounds indices). -/
def tsAt (es : List Edge) (i : Nat) : Nat :=
  match es[i]? with
  | some e => e.tstamp
  | none => 0

/-- Executable check that adjacent timestamps are non-decreasing. -/
def monoTsB : List Edge → Bool
  | [] => true
  | [_] => true
  | a :: b :: t => decide (a.tstamp ≤ b.tstamp) && monoTsB (b :: t)

/-- Spec invariant 2 on the recorded edge sequence: timestamps are
monotonically non-decreasing (pairwise-adjacent form). -/
def MonoTs (es : List Edge) : Prop := monoTsB es = true

/-- All timestamps are `uint64_t` values. -/
def BoundedTs (es : List Edge) : Prop := es.all (fun e => decide (e.tstamp < W64)) = true

instance (es : List Edge) : Decidable (MonoTs es) :=
  inferInstanceAs (Decidable (_ = true))

instance (es : List Edge) : Decidable (BoundedTs es) :=
  inferInstanceAs (Decidable (_ = true))

/-- Spec invariant 4 on one subcall: `exclusive ≤ inclusive`. -/
def SubOK (s : Subcall) : Prop := s.myCost ≤ s.total

/-- Every emitted subcall satisfies `SubOK`. -/
def AllOK (l : List Subcall) : Prop := ∀ s ∈ l, SubOK s

/-- Postcondition of a `_traverse` (or loop-continuation) outcome,
relative to the position `base` whose edge opens the call: on a normal
return the position strictly advanced and stays within the array bound,
the returned cost is at most the timestamp span from `base` to the last
consumed edge, and every emitted subcall satisfies `SubOK`; on an
out-of-bounds or out-of-fuel outcome, the emitted subcalls still satisfy
`SubOK`. -/
def RSpec (es : List Edge) (base : Nat) : TR → Prop
  | TR.ok psn' ret subs =>
      base < psn' ∧ psn' ≤ es.length ∧
      ret + tsAt es base ≤ tsAt es (psn' - 1) ∧ AllOK subs
  | TR.oob subs => AllOK subs
  | TR.out subs => AllOK subs

/-- The value of a C expression `(int32_t)( a - b )` where `a`, `b` are
`uint32_t`: the wrapped difference reinterpreted as a signed 32-bit
value.  Used by the subcall sort comparators
`_addresses_sort_dest_fn` / `_addresses_sort_fn` (orbprofile.c:397-425). -/
def i32diff (a b : Nat) : Int :=
  let d := (a % W32 + W32 - b % W32) % W32
  if d < 2 ^ 31 then (d : Int) else (d : Int) - (W32 : Int)

/-- `_addresses_sort_dest_fn` (orbprofile.c:412-425): compare subcalls
first by `dst`, then by `src`. -/
def cmpSubDst (a b : Subcall) : Int :=
  let c := i32diff a.dst b.dst
  if c ≠ 0 then c else i32diff a.src b.src

/-- Insert into a list sorted by `le` (ascending). -/
def insertLe {α : Type} (le : α → α → Bool) (a : α) : List α → List α
  | [] => [a]
  | b :: t => if le a b then a :: b :: t else b :: insertLe le a t

/-- Insertion sort by `le` (ascending).  Models C `qsort` with a
comparator `cmp` via `le a b := cmp a b ≤ 0`: `qsort`'s algorithm is
unspecified, but on inputs where the comparator is a total preorder any
correct sort yields a list ordered by `le`, and all concrete inputs used
below have pairwise strictly ordered keys, so the result is unique. -/
def isortLe {α : Type} (le : α → α → Bool) : List α → List α
  | [] => []
  | a :: t => insertLe le a (isortLe le t)

/-- `qsort( r->sub, r->subPsn, sizeof(struct subcalls), _addresses_sort_dest_fn )`
at orbprofile.c:445. -/
def dumpSorted (subs : List Subcall) : List Subcall :=
  isortLe (fun a b => cmpSubDst a b ≤ 0) subs

/-- `r->sub[i].dst`, `0` past the end (pass-1 reads are in bounds whenever
the loop guards hold). -/
def dstAt (subs : List Subcall) (i : Nat) : Nat :=
  match subs[i]? with
  | some s => s.dst
  | none => 0

/-- `r->sub[i].myCost`, `0` past the end. -/
def myAt (subs : List Subcall) (i : Nat) : Nat :=
  match subs[i]? with
  | some s => s.myCost
  | none => 0

/-- The inner coalescing loop of Callgrind pass 1 (orbprofile.c:452-455):
`while ( ( i < r->subPsn - 1 ) && ( r->sub[i].dst == r->sub[i+1].dst ) )
{ myCost += r->sub[i++].myCost; }`.  Note that the C code adds
`sub[i].myCost` *before* incrementing `i`, and that `myCost` was already
initialised to `sub[i].myCost` by the outer loop.  `subPsn - 1` is
`uint64_t` arithmetic, hence `wsub`. -/
def p1while (subs : List Subcall) : Nat → Nat → Nat → Nat × Nat
  | 0, i, my => (i, my)
  | fuel + 1, i, my =>
    if i < wsub subs.length 1 ∧ dstAt subs i = dstAt subs (i + 1) then
      p1while subs fuel (i + 1) (wadd my (myAt subs i))
    else (i, my)

/-- One outer iteration's coalescing work in Callgrind pass 1: from index
`i`, initialise `myCost = r->sub[i].myCost` and run the inner loop,
yielding the final index and coalesced cost. -/
def p1step (subs : List Subcall) (i : Nat) : Nat × Nat :=
  p1while subs subs.length i (myAt subs i)

/-- The outer loop of Callgrind pass 1 (orbprofile.c:447-465):
`for ( i = 0; i < r->subPsn - 1; i++ )`, initialising
`myCost = r->sub[i].myCost`, running the inner coalescing loop, then
looking up the name-cache entry for `r->sub[i].dst` and, if its `seen`
flag is clear, emitting the `(dst address, myCost)` self-cost record and
setting `seen`.  The name cache's `seen` flags are modelled as the list
of addresses whose flag is set; the result is the emission list paired
with the final `seen` state. -/
def p1outer (subs : List Subcall) :
    Nat → Nat → List Nat → List (Nat × Nat) → List (Nat × Nat) × List Nat
  | 0, _, seen, emitted => (emitted, seen)
  | fuel + 1, i, seen, emitted =>
    if i < wsub subs.length 1 then
      if dstAt subs (p1step subs i).1 ∈ seen then
        p1outer subs fuel ((p1step subs i).1 + 1) seen emitted
      else
        p1outer subs fuel ((p1step subs i).1 + 1)
          (dstAt subs (p1step subs i).1 :: seen)
          (emitted ++ [(dstAt subs (p1step subs i).1, (p1step subs i).2)])
    else (emitted, seen)

/-- Callgrind pass 1 of `_dumpProfile` on an already-recorded subcall
list: sort by `_addresses_sort_dest_fn`, start from the freshly reset
`seen` state (the single `HASH_ITER` reset at orbprofile.c:439-442), and
run the pass-1 loop from `i = 0`. -/
def pass1Run (subs : List Subcall) : List (Nat × Nat) × List Nat :=
  p1outer (dumpSorted subs) (subs.length + 1) 0 [] []

/-- The `(callee address, myCost)` self-cost records emitted by pass 1. -/
def pass1Emissions (subs : List Subcall) : List (Nat × Nat) := (pass1Run subs).1

/-- The name-cache `seen` state at the start of pass 2 (orbprofile.c:472):
pass 2 begins directly after pass 1, with no further reset. -/
def seenAtPass2Start (subs : List Subcall) : List Nat := (pass1Run subs).2

/-- C `strcmp` on the underlying character lists (only the sign is ever
used by the callers). -/
def strcmpAux : List Char → List Char → Int
  | [], [] => 0
  | [], _ :: _ => -1
  | _ :: _, [] => 1
  | a :: as, b :: bs =>
    if a.toNat < b.toNat then -1
    else if b.toNat < a.toNat then 1
    else strcmpAux as bs

/-- C `strcmp`. -/
def strcmpM (a b : String) : Int := strcmpAux a.data b.data

/-- `_calls_sort_dest_fn` (orbprofile.c:240-267): compare edges by
`(dstFile, dstFn, srcFile, srcFn)` using `strcmp`. -/
def cmpEdgeDst (a b : Edge) : Int :=
  let c := strcmpM a.dstFile b.dstFile
  if c ≠ 0 then c else
  let c := strcmpM a.dstFn b.dstFn
  if c ≠ 0 then c else
  let c := strcmpM a.srcFile b.srcFile
  if c ≠ 0 then c else strcmpM a.srcFn b.srcFn

/-- `_calls_sort_src_fn` (orbprofile.c:211-238): compare edges by
`(srcFile, srcFn, dstFile, dstFn)` using `strcmp`. -/
def cmpEdgeSrc (a b : Edge) : Int :=
  let c := strcmpM a.srcFile b.srcFile
  if c ≠ 0 then c else
  let c := strcmpM a.srcFn b.srcFn
  if c ≠ 0 then c else
  let c := strcmpM a.dstFile b.dstFile
  if c ≠ 0 then c else strcmpM a.dstFn b.dstFn

/-- The state of `r->calls` after `_outputDot` returns true: the dot
emitter sorts the shared edge array *in place*, first with
`_calls_sort_dest_fn` (orbprofile.c:282) and then with
`_calls_sort_src_fn` (orbprofile.c:316). -/
def dotSortFinal (es : List Edge) : List Edge :=
  isortLe (fun a b => cmpEdgeSrc a b ≤ 0)
    (isortLe (fun a b => cmpEdgeDst a b ≤ 0) es)

/-- The edge sequence `_outputProfile`'s traversal reads, as a function of
whether a dot file is configured: `main` (orbprofile.c:1025-1036) calls
`_outputDot` before `_outputProfile`, and `_outputDot` returns without
touching `r->calls` only when `r->options->dotfile` is null. -/
def profileInput (dotConfigured : Bool) (es : List Edge) : List Edge :=
  if dotConfigured then dotSortFinal es else es

/-- `r->calls[i].srcFn`, `""` past the end. -/
def srcFnAt (es : List Edge) (i : Nat) : String :=
  match es[i]? with
  | some e => e.srcFn
  | none => ""

/-- `r->calls[i].dstFn`, `""` past the end. -/
def dstFnAt (es : List Edge) (i : Nat) : String :=
  match es[i]? with
  | some e => e.dstFn
  | none => ""

/-- The inner run-coalescing loop of the dot arrow pass
(orbprofile.c:349-353): `int cnt = 0; while ( x < cdCount - 1 &&
calls[x].srcFn == calls[x+1].srcFn && calls[x].dstFn == calls[x+1].dstFn )
{ cnt++; x++; }`.  Returns the final `(x, cnt)`. -/
def arrowWhile (es : List Edge) : Nat → Nat → Nat → Nat × Nat
  | 0, x, cnt => (x, cnt)
  | fuel + 1, x, cnt =>
    if x < wsub es.length 1 ∧ srcFnAt es x = srcFnAt es (x + 1) ∧
        dstFnAt es x = dstFnAt es (x + 1) then
      arrowWhile es fuel (x + 1) (cnt + 1)
    else (x, cnt)

/-- The outer loop of the dot arrow pass (orbprofile.c:345-357): for each
run it prints one `srcFn -> dstFn [label=cnt , weight=0.1;];` line;
modelled as the list of `(srcFn, dstFn, label)` triples in output order. -/
def arrowOuter (es : List Edge) :
    Nat → Nat → List (String × String × Nat) → List (String × String × Nat)
  | 0, _, out => out
  | fuel + 1, x, out =>
    if x < es.length then
      let r := arrowWhile es es.length x 0
      arrowOuter es fuel (r.1 + 1) (out ++ [(srcFnAt es r.1, dstFnAt es r.1, r.2)])
    else out

/-- The arrow lines printed by `_outputDot`'s final pass over the (sorted)
edge list. -/
def arrowLines (es : List Edge) : List (String × String × Nat) :=
  arrowOuter es (es.length + 1) 0 []

/-- One disassembly line of a `struct nameEntry`, as consumed by `_etmCB`:
`n.assy[n.assyLine]` with fields `isJump`, `jumpdest`, `is4Byte`. -/
structure AssyEntry where
  isJump : Bool
  jumpdest : Nat
  is4Byte : Bool
deriving DecidableEq

/-- The part of `struct nameEntry` that `_etmCB` reads for an atom:
the interned `filename` and `function` strings and the disassembly line
for the working address (`none` models `n.assyLine == ASSY_NOT_FOUND`).
The `addr`/`line` fields consumed only by `_dumpProfile`'s printf calls
are not needed by the claims about `_etmCB` and are omitted. -/
structure NameEntry where
  filename : String
  function : String
  assy : Option AssyEntry
deriving DecidableEq

/-- `struct opConstruct` (orbprofile.c:143-151), the recorder's cursor
state between decoder callbacks.  `currentFilename` / `currentFunction`
are nullable C pointers, modelled as `Option String` (the globals start
as NULL).  `currentLine` is never read by the recorder and is omitted. -/
structure OpConstruct where
  currentFilename : Option String
  currentFunction : Option String
  workingAddr : Nat
  lastAddr : Nat
  lastWasJump : Bool
deriving DecidableEq

/-- The `EV_CH_EX_ENTRY` branch of `_etmCB` (orbprofile.c:624-629): it
assigns the literal `"INTERRUPT"` to `r->op.currentFilename` and sets
`r->op.lastWasJump`; the assignment to `currentFunction` is commented out
in the source. -/
def exEntryStep (op : OpConstruct) : OpConstruct :=
  { op with currentFilename := some "INTERRUPT", lastWasJump := true }

/-- One iteration of the per-atom loop of `_etmCB` (orbprofile.c:636-689),
with the external symbol resolver abstracted as `sym : address →
Option NameEntry` (`none` models `SymbolLookup` returning false).
Arguments: `ic` is `cpu->instCount` (the edge timestamp), `op` the cursor,
`calls` the recorded edge array, `d` the remaining `disposition` bitmask.
Returns the updated `(cursor, edge array, disposition)`; the final
component models `disposition >>= 1`.  On a symbol hit the edge is
appended exactly when the interned `(filename, function)` pair changed;
`"Entry"` substitutes for a NULL current file/function, per the source. -/
def atomStep (sym : Nat → Option NameEntry) (ic : Nat) (op : OpConstruct)
    (calls : List Edge) (d : Nat) : OpConstruct × List Edge × Nat :=
  match sym op.workingAddr with
  | none =>
    ({ op with workingAddr := (op.workingAddr + 2) % W32 }, calls, d / 2)
  | some n =>
    let changed : Bool :=
      !(op.currentFilename == some n.filename && op.currentFunction == some n.function)
    let calls1 :=
      if changed then
        calls ++ [{ tstamp := ic
                    srcFile := op.currentFilename.getD "Entry"
                    srcFn := op.currentFunction.getD "Entry"
                    dstFile := n.filename
                    dstFn := n.function
                    src := op.lastAddr
                    dst := op.workingAddr
                    inFlag := op.lastWasJump }]
      else calls
    let op1 :=
      if changed then
        { op with currentFilename := some n.filename, currentFunction := some n.function }
      else op
    let op2 := { op1 with lastWasJump := false, lastAddr := op.workingAddr }
    let op3 :=
      match n.assy with
      | some a =>
        if a.isJump && d % 2 = 1 then
          { op2 with workingAddr := a.jumpdest, lastWasJump := true }
        else
          { op2 with workingAddr := (op2.workingAddr + (if a.is4Byte then 4 else 2)) % W32 }
      | none => { op2 with workingAddr := (op2.workingAddr + 2) % W32 }
    (op3, calls1, d / 2)

/-- Two subcalls with the same callee (`dst = 1`) and distinct exclusive
costs, already in `_addresses_sort_dest_fn` order. -/
def subsSameCallee : List Subcall := [⟨0, 1, 5, 5⟩, ⟨2, 1, 7, 7⟩]

/-- Two chronologically appended edges whose `srcFn` keys are in reverse
lexicographic order, so that the dot emitter's in-place sort permutes
them. -/
def ezEdge : Edge := ⟨0, "f", "z", "g", "w", 1, 2, true⟩

/-- See `ezEdge`. -/
def eaEdge : Edge := ⟨10, "f", "a", "g", "w", 2, 1, false⟩

/-- The append-order edge sequence for the dot/profile ordering claim. -/
def c5Edges : List Edge := [ezEdge, eaEdge]

/-- Scenario S5 of the spec: a sorted edge list with three consecutive
`foo→bar` edges followed by one `foo→baz` edge. -/
def s5Edges : List Edge :=
  [⟨0, "f", "foo", "f", "bar", 1, 2, true⟩,
   ⟨1, "f", "foo", "f", "bar", 1, 2, true⟩,
   ⟨2, "f", "foo", "f", "bar", 1, 2, true⟩,
   ⟨3, "f", "foo", "f", "baz", 1, 3, true⟩]

/-- A cursor state inside function `main` of file `file.c`. -/
def opMain : OpConstruct := ⟨some "file.c", some "main", 4096, 4094, false⟩

/-- A symbol resolver that knows no address (every lookup fails). -/
def symNone : Nat → Option NameEntry := fun _ => none

/-- A cursor state used to witness the no-symbol step. -/
def opPlain : OpConstruct := ⟨some "a.c", some "f", 100, 98, false⟩

/-- A symbol resolver mapping every address to an interrupt handler
symbol with no disassembly. -/
def symIrq : Nat → Option NameEntry := fun _ => some ⟨"irq.c", "handler", none⟩

/-- Call-in edge used by the long-window run below. -/
def inE (t : Nat) : Edge := ⟨t, "f", "g", "f", "g", 5, 6, true⟩

/-- Call-out edge used by the long-window run below. -/
def outE (t : Nat) : Edge := ⟨t, "f", "g", "f", "g", 6, 5, false⟩

/-- A window of `2^32 + 3` edges: call-ins at positions `0..2^32`, each
with timestamp equal to its position, then two call-outs.  The traversal
descends one nesting level per call-in; the child entered at position
`2^32` records `uint32_t startPoint = 2^32 % 2^32 = 0`, so its inclusive
cost is measured from `calls[0]` instead of `calls[2^32]`. -/
def cexEdges : List Edge :=
  (List.range (W32 + 1)).map inE ++ [outE (W32 + 1), outE (W32 + 2)]

/-- The subcall emitted by the child entered at position `2^32`: its
inclusive cost is inflated to `t[2^32+1] - t[0] = 2^32 + 1` by the
`startPoint` narrowing (the true span is `1`). -/
def s1cex : Subcall := ⟨5, 6, W32 + 1, W32 + 1⟩

/-- The subcall emitted by the parent entered at position `2^32 - 1`: its
inclusive cost is `t[2^32+2] - t[2^32-1] = 3`, but the inflated child
cost `2^32 + 1` makes `myCost = 3 - (2^32 + 1)` underflow in `uint64_t`
arithmetic, yielding `exclusive > inclusive`. -/
def s2cex : Subcall := ⟨5, 6, W64 - W32 + 2, 3⟩

theorem mem_of_getElemOpt {α : Type} {l : List α} {i : Nat} {a : α}
    (h : l[i]? = some a) : a ∈ l := by
  obtain ⟨hl, he⟩ := List.getElem?_eq_some.mp h
  exact he ▸ List.getElem_mem hl

theorem lt_length_of_getElemOpt {α : Type} {l : List α} {i : Nat} {a : α}
    (h : l[i]? = some a) : i < l.length :=
  (List.getElem?_eq_some.mp h).1

theorem w64_pos : 0 < W64 := by norm_num [W64]

theorem wadd_le (a b : Nat) : wadd a b ≤ a + b := Nat.mod_le _ _

/-- `uint64_t` subtraction agrees with `Nat` subtraction when it does not
underflow and the minuend is a `uint64_t` value. -/
theorem wsub_eq (a b : Nat) (hba : b ≤ a) (ha : a < W64) : wsub a b = a - b := by
  unfold wsub
  rw [Nat.mod_eq_of_lt ha, Nat.mod_eq_of_lt (lt_of_le_of_lt hba ha)]
  have h1 : a + W64 - b = W64 + (a - b) := by omega
  rw [h1, Nat.add_mod_left]
  exact Nat.mod_eq_of_lt (by omega)

theorem tsAt_eq_getElem (es : List Edge) (i : Nat) (h : i < es.length) :
    tsAt es i = es[i].tstamp := by
  simp [tsAt, List.getElem?_eq_getElem h]

/-- Unpack the boolean bound into a per-element bound. -/
theorem boundedTs_mem {es : List Edge} (hb : BoundedTs es) {e : Edge}
    (he : e ∈ es) : e.tstamp < W64 := by
  have := List.all_eq_true.mp hb e he
  exact of_decide_eq_true this

theorem tsAt_lt (es : List Edge) (hb : BoundedTs es) (i : Nat) : tsAt es i < W64 := by
  rcases h : es[i]? with _ | e
  · simp only [tsAt, h]; exact w64_pos
  · simp only [tsAt, h]; exact boundedTs_mem hb (mem_of_getElemOpt h)

theorem tsAt_cons_zero (a : Edge) (l : List Edge) : tsAt (a :: l) 0 = a.tstamp := by
  simp [tsAt]

theorem tsAt_cons_succ (a : Edge) (l : List Edge) (k : Nat) :
    tsAt (a :: l) (k + 1) = tsAt l k := by
  simp [tsAt]

theorem tsAt_step (es : List Edge) (hm : MonoTs es) (k : Nat)
    (h : k + 1 < es.length) : tsAt es k ≤ tsAt es (k + 1) := by
  induction es generalizing k with
  | nil => simp at h
  | cons a t ih =>
    cases t with
    | nil => simp at h
    | cons b t2 =>
      have hm2 : (a.tstamp ≤ b.tstamp) ∧ monoTsB (b :: t2) = true := by
        have := hm
        simp only [MonoTs, monoTsB, Bool.and_eq_true, decide_eq_true_iff] at this
        exact this
      cases k with
      | zero =>
        rw [tsAt_cons_zero, tsAt_cons_succ, tsAt_cons_zero]
        exact hm2.1
      | succ k2 =>
        rw [tsAt_cons_succ, tsAt_cons_succ]
        exact ih hm2.2 k2 (by simpa using h)

theorem tsAt_mono (es : List Edge) (hm : MonoTs es) :
    ∀ j i, i ≤ j → j < es.length → tsAt es i ≤ tsAt es j := by
  intro j
  induction j with
  | zero =>
    intro i hij _
    have : i = 0 := Nat.le_zero.mp hij
    subst this; exact le_refl _
  | succ k ih =>
    intro i hij hlen
    by_cases hik : i = k + 1
    · subst hik; exact le_refl _
    · exact le_trans (ih i (by omega) (by omega)) (tsAt_step es hm k hlen)

theorem allOK_nil : AllOK [] := by intro s h; cases h

theorem allOK_append {l1 l2 : List Subcall} (h1 : AllOK l1) (h2 : AllOK l2) :
    AllOK (l1 ++ l2) := by
  intro s hs
  rcases List.mem_append.mp hs with h | h
  · exact h1 s h
  · exact h2 s h

/-- The inlining of the recursive child call in `tloop` is faithful:
`_traverse` at a positive layer is exactly the loop entered at the next
position, with the `uint32_t`-narrowed `startPoint`. -/
theorem traverse_succ_layer (es : List Edge) (f l psn : Nat) :
    traverse es (f + 1) (l + 1) psn = tloop es f (l + 1) (psn % W32) (psn + 1) 0 [] := by
  simp [traverse]

/-- Core invariant of the tree walker's loop: under monotone, bounded
timestamps, every outcome satisfies `RSpec` — in particular every subcall
it emits has `myCost ≤ total`, because the accumulated child cost never
exceeds the enclosing timestamp span, so the `uint64_t` subtraction
`total - childCost` never underflows. -/
theorem tloop_spec (es : List Edge) (hm : MonoTs es) (hb : BoundedTs es)
    (hlen : es.length ≤ W32) :
    ∀ fuel layer sp psn cc acc, sp < psn →
      cc + tsAt es sp ≤ tsAt es (psn - 1) → AllOK acc →
      RSpec es sp (tloop es fuel layer sp psn cc acc) := by
  intro fuel
  induction fuel with
  | zero =>
    intro layer sp psn cc acc _ _ hacc
    simpa [tloop, RSpec] using hacc
  | succ f ih =>
    intro layer sp psn cc acc hsp hcc hacc
    rcases hget : es[psn]? with _ | e
    · simpa [tloop, hget, RSpec] using hacc
    · have hpsnlen : psn < es.length := lt_length_of_getElemOpt hget
      have hmod : psn % W32 = psn := Nat.mod_eq_of_lt (lt_of_lt_of_le hpsnlen hlen)
      have hmono1 : tsAt es (psn - 1) ≤ tsAt es psn :=
        tsAt_mono es hm psn (psn - 1) (by omega) hpsnlen
      have htpsn : tsAt es psn = e.tstamp := by simp [tsAt, hget]
      by_cases hin : e.inFlag
      · by_cases hguard : wsub es.length 2 ≤ psn
        · simp only [tloop, hget, hin, if_true, if_pos hguard]
          refine ⟨hsp, le_of_lt hpsnlen, ?_, hacc⟩
          omega
        · rcases hch : tloop es f (layer + 1) psn (psn + 1) 0 [] with ⟨psn', ret, subs⟩ | subs | subs
          · have hchild := ih (layer + 1) psn (psn + 1) 0 [] (by omega) (by simp) allOK_nil
            rw [hch] at hchild
            obtain ⟨h1, h2, h3, h4⟩ := hchild
            simp only [tloop, hget, hin, if_true, if_neg hguard, hmod, hch]
            refine ih layer sp psn' (wadd cc ret) (acc ++ subs) (by omega) ?_
              (allOK_append hacc h4)
            have hwle : wadd cc ret ≤ cc + ret := wadd_le cc ret
            omega
          · have hchild := ih (layer + 1) psn (psn + 1) 0 [] (by omega) (by simp) allOK_nil
            rw [hch] at hchild
            simp only [tloop, hget, hin, if_true, if_neg hguard, hmod, hch]
            exact allOK_append hacc hchild
          · have hchild := ih (layer + 1) psn (psn + 1) 0 [] (by omega) (by simp) allOK_nil
            rw [hch] at hchild
            simp only [tloop, hget, hin, if_true, if_neg hguard, hmod, hch]
            exact allOK_append hacc hchild
      · rcases hget0 : es[sp]? with _ | e0
        · simpa [tloop, hget, hget0, hin, RSpec] using hacc
        · have htsp : tsAt es sp = e0.tstamp := by simp [tsAt, hget0]
          have hBW : e.tstamp < W64 := boundedTs_mem hb (mem_of_getElemOpt hget)
          have hAB : e0.tstamp ≤ e.tstamp := by omega
          have htotal : wsub e.tstamp e0.tstamp = e.tstamp - e0.tstamp :=
            wsub_eq _ _ hAB hBW
          have hccle : cc ≤ e.tstamp - e0.tstamp := by omega
          have hmy : wsub (wsub e.tstamp e0.tstamp) cc = e.tstamp - e0.tstamp - cc := by
            rw [htotal]; exact wsub_eq _ _ hccle (by omega)
          simp only [tloop, hget, hget0, hin, if_false, Bool.false_eq_true, RSpec]
          refine ⟨by omega, by omega, ?_, ?_⟩
          · simp only [Nat.add_sub_cancel]
            rw [htotal, htsp, htpsn]; omega
          · intro s hs
            rcases List.mem_append.mp hs with h | h
            · exact hacc s h
            · have : s = ⟨e.dst, e.src, wsub (wsub e.tstamp e0.tstamp) cc,
                  wsub e.tstamp e0.tstamp⟩ := by simpa using h
              subst this
              show wsub (wsub e.tstamp e0.tstamp) cc ≤ wsub e.tstamp e0.tstamp
              rw [hmy, htotal]; omega

/-- `RSpec` for the `_traverse` invocations the driver performs
(`layer = 0`). -/
theorem traverse_spec (es : List Edge) (hm : MonoTs es) (hb : BoundedTs es)
    (hlen : es.length ≤ W32) (fuel psn : Nat) :
    RSpec es psn (traverse es fuel 0 psn) := by
  cases fuel with
  | zero => exact allOK_nil
  | succ f =>
    rcases hget : es[psn]? with _ | e
    · simpa [traverse, hget, RSpec] using allOK_nil
    · have hmod : psn % W32 = psn :=
        Nat.mod_eq_of_lt (lt_of_lt_of_le (lt_length_of_getElemOpt hget) hlen)
      by_cases hin : e.inFlag
      · simp only [traverse, if_pos rfl, hget, hin, if_true, hmod]
        exact tloop_spec es hm hb hlen f 0 psn (psn + 1) 0 [] (by omega) (by simp) allOK_nil
      · simp only [traverse, if_pos rfl, hget, hin, if_false, Bool.false_eq_true, RSpec]
        exact ⟨by omega, lt_length_of_getElemOpt hget, by simp, allOK_nil⟩

/-- `AllOK` is preserved by the driver loop. -/
theorem driver_spec (es : List Edge) (hm : MonoTs es) (hb : BoundedTs es)
    (hlen : es.length ≤ W32) :
    ∀ fuel psn acc, AllOK acc → AllOK (drSubs (driver es fuel psn acc)) := by
  intro fuel
  induction fuel with
  | zero => intro psn acc hacc; simpa [driver, drSubs] using hacc
  | succ f ih =>
    intro psn acc hacc
    by_cases hc : psn < wsub es.length 2
    · rcases hch : traverse es f 0 psn with ⟨psn', ret, subs⟩ | subs | subs
      · have h := traverse_spec es hm hb hlen f psn
        rw [hch] at h
        simp only [driver, if_pos hc, hch]
        exact ih psn' (acc ++ subs) (allOK_append hacc h.2.2.2)
      · have h := traverse_spec es hm hb hlen f psn
        rw [hch] at h
        simp only [driver, if_pos hc, hch]
        exact allOK_append hacc h
      · have h := traverse_spec es hm hb hlen f psn
        rw [hch] at h
        simp only [driver, if_pos hc, hch]
        exact allOK_append hacc h
    · simp only [driver, if_neg hc]
      exact hacc


theorem four_le_w32 : 4 ≤ W32 := by norm_num [W32]

theorem w32_add3_lt_w64 : W32 + 3 < W64 := by norm_num [W32, W64]

theorem cex_len : cexEdges.length = W32 + 3 := by
  rw [cexEdges, List.length_append, List.length_map, List.length_range,
    List.length_cons, List.length_cons, List.length_nil]

theorem cex_get_in (i : Nat) (h : i < W32 + 1) : cexEdges[i]? = some (inE i) := by
  have hl : i < ((List.range (W32 + 1)).map inE).length := by
    rw [List.length_map, List.length_range]; omega
  rw [cexEdges, List.getElem?_append, if_pos hl, List.getElem?_map]
  simp [List.getElem?_range, h]

theorem cex_get_out1 : cexEdges[W32 + 1]? = some (outE (W32 + 1)) := by
  have hl : ((List.range (W32 + 1)).map inE).length = W32 + 1 := by
    rw [List.length_map, List.length_range]
  rw [cexEdges, List.getElem?_append, if_neg (by rw [hl]; omega), hl]
  have h1 : W32 + 1 - (W32 + 1) = 0 := by omega
  rw [h1]
  rfl

theorem cex_get_out2 : cexEdges[W32 + 2]? = some (outE (W32 + 2)) := by
  have hl : ((List.range (W32 + 1)).map inE).length = W32 + 1 := by
    rw [List.length_map, List.length_range]
  rw [cexEdges, List.getElem?_append, if_neg (by rw [hl]; omega), hl]
  have h1 : W32 + 2 - (W32 + 1) = 1 := by omega
  rw [h1]
  rfl

theorem cex_get_none : cexEdges[W32 + 3]? = none := by
  have hl : ((List.range (W32 + 1)).map inE).length = W32 + 1 := by
    rw [List.length_map, List.length_range]
  rw [cexEdges, List.getElem?_append, if_neg (by rw [hl]; omega), hl]
  have h1 : W32 + 3 - (W32 + 1) = 2 := by omega
  rw [h1]
  rfl

theorem cex_bound : wsub cexEdges.length 2 = W32 + 1 := by
  rw [cex_len]
  decide

theorem tloop_step_none (es : List Edge) (f lay sp psn cc : Nat) (acc : List Subcall)
    (h : es[psn]? = none) : tloop es (f + 1) lay sp psn cc acc = TR.oob acc := by
  simp only [tloop, h]

theorem tloop_step_out (es : List Edge) (f lay sp psn cc : Nat) (acc : List Subcall)
    (e e0 : Edge) (h : es[psn]? = some e) (hin : ¬ (e.inFlag = true))
    (h0 : es[sp]? = some e0) :
    tloop es (f + 1) lay sp psn cc acc =
      TR.ok (psn + 1) (wsub e.tstamp e0.tstamp)
        (acc ++ [⟨e.dst, e.src, wsub (wsub e.tstamp e0.tstamp) cc, wsub e.tstamp e0.tstamp⟩]) := by
  simp only [tloop, h, h0, hin, if_false, Bool.false_eq_true]

theorem tloop_step_in (es : List Edge) (f lay sp psn cc : Nat) (acc : List Subcall)
    (e : Edge) (h : es[psn]? = some e) (hin : e.inFlag = true)
    (hg : ¬ (wsub es.length 2 ≤ psn)) :
    tloop es (f + 1) lay sp psn cc acc =
      match tloop es f (lay + 1) (psn % W32) (psn + 1) 0 [] with
      | TR.ok psn' ret subs => tloop es f lay sp psn' (wadd cc ret) (acc ++ subs)
      | TR.oob subs => TR.oob (acc ++ subs)
      | TR.out subs => TR.out (acc ++ subs) := by
  simp only [tloop, h, hin, if_true, if_neg hg]

theorem tloop_step_in_ok (es : List Edge) (f lay sp psn cc : Nat) (acc : List Subcall)
    (e : Edge) (psn' ret : Nat) (subs : List Subcall)
    (h : es[psn]? = some e) (hin : e.inFlag = true)
    (hg : ¬ (wsub es.length 2 ≤ psn))
    (hch : tloop es f (lay + 1) (psn % W32) (psn + 1) 0 [] = TR.ok psn' ret subs) :
    tloop es (f + 1) lay sp psn cc acc =
      tloop es f lay sp psn' (wadd cc ret) (acc ++ subs) := by
  rw [tloop_step_in es f lay sp psn cc acc e h hin hg, hch]

theorem tloop_step_in_oob (es : List Edge) (f lay sp psn cc : Nat) (acc : List Subcall)
    (e : Edge) (subs : List Subcall)
    (h : es[psn]? = some e) (hin : e.inFlag = true)
    (hg : ¬ (wsub es.length 2 ≤ psn))
    (hch : tloop es f (lay + 1) (psn % W32) (psn + 1) 0 [] = TR.oob subs) :
    tloop es (f + 1) lay sp psn cc acc = TR.oob (acc ++ subs) := by
  rw [tloop_step_in es f lay sp psn cc acc e h hin hg, hch]

theorem traverse_step_in (es : List Edge) (f psn : Nat) (e : Edge)
    (h : es[psn]? = some e) (hin : e.inFlag = true) :
    traverse es (f + 1) 0 psn = tloop es f 0 (psn % W32) (psn + 1) 0 [] := by
  simp only [traverse, if_pos rfl, h, hin, if_true]

theorem driver_step_oob (es : List Edge) (f psn : Nat) (acc subs : List Subcall)
    (hc : psn < wsub es.length 2) (ht : traverse es f 0 psn = TR.oob subs) :
    driver es (f + 1) psn acc = DR.oob (acc ++ subs) := by
  simp only [driver, if_pos hc, ht]

theorem cex_top (f lay : Nat) (hf : 1 ≤ f) :
    tloop cexEdges f lay 0 (W32 + 1) 0 [] = TR.ok (W32 + 2) (W32 + 1) [s1cex] := by
  obtain ⟨g, rfl⟩ : ∃ g, f = g + 1 := ⟨f - 1, by omega⟩
  rw [tloop_step_out cexEdges g lay 0 (W32 + 1) 0 [] (outE (W32 + 1)) (inE 0)
    cex_get_out1 (by decide) (cex_get_in 0 (by have := four_le_w32; omega))]
  decide

theorem cex_lvl1 (f lay : Nat) (hf : 2 ≤ f) :
    tloop cexEdges f lay (W32 - 1) W32 0 [] = TR.ok (W32 + 3) 3 [s1cex, s2cex] := by
  obtain ⟨g, rfl⟩ : ∃ g, f = g + 1 + 1 := ⟨f - 2, by omega⟩
  have hw := four_le_w32
  have hch : tloop cexEdges (g + 1) (lay + 1) (W32 % W32) (W32 + 1) 0 [] =
      TR.ok (W32 + 2) (W32 + 1) [s1cex] := by
    rw [Nat.mod_self]
    exact cex_top (g + 1) (lay + 1) (by omega)
  rw [tloop_step_in_ok cexEdges (g + 1) lay (W32 - 1) W32 0 [] (inE W32)
    (W32 + 2) (W32 + 1) [s1cex]
    (cex_get_in W32 (by omega)) rfl (by rw [cex_bound]; omega) hch]
  rw [tloop_step_out cexEdges g lay (W32 - 1) (W32 + 2) (wadd 0 (W32 + 1)) ([] ++ [s1cex])
    (outE (W32 + 2)) (inE (W32 - 1))
    cex_get_out2 (by decide) (cex_get_in (W32 - 1) (by omega))]
  decide

theorem cex_oob_base (f lay : Nat) (hf : 3 ≤ f) :
    tloop cexEdges f lay (W32 - 2) (W32 - 1) 0 [] = TR.oob [s1cex, s2cex] := by
  obtain ⟨g, rfl⟩ : ∃ g, f = g + 1 + 1 := ⟨f - 2, by omega⟩
  have hw := four_le_w32
  have hch : tloop cexEdges (g + 1) (lay + 1) ((W32 - 1) % W32) (W32 - 1 + 1) 0 [] =
      TR.ok (W32 + 3) 3 [s1cex, s2cex] := by
    rw [Nat.mod_eq_of_lt (show W32 - 1 < W32 by omega), show W32 - 1 + 1 = W32 from by omega]
    exact cex_lvl1 (g + 1) (lay + 1) (by omega)
  rw [tloop_step_in_ok cexEdges (g + 1) lay (W32 - 2) (W32 - 1) 0 [] (inE (W32 - 1))
    (W32 + 3) 3 [s1cex, s2cex]
    (cex_get_in (W32 - 1) (by omega)) rfl (by rw [cex_bound]; omega) hch]
  rw [tloop_step_none cexEdges g lay (W32 - 2) (W32 + 3) (wadd 0 3) ([] ++ [s1cex, s2cex])
    cex_get_none]
  decide

theorem cex_oob (m : Nat) : ∀ f lay, m + 4 ≤ f → m + 4 ≤ W32 →
    tloop cexEdges f lay (W32 - 3 - m) (W32 - 2 - m) 0 [] = TR.oob [s1cex, s2cex] := by
  induction m with
  | zero =>
    intro f lay hf hm
    obtain ⟨g, rfl⟩ : ∃ g, f = g + 1 := ⟨f - 1, by omega⟩
    have hw := four_le_w32
    rw [show W32 - 3 - 0 = W32 - 3 from by omega, show W32 - 2 - 0 = W32 - 2 from by omega]
    have hch : tloop cexEdges g (lay + 1) ((W32 - 2) % W32) (W32 - 2 + 1) 0 [] =
        TR.oob [s1cex, s2cex] := by
      rw [Nat.mod_eq_of_lt (show W32 - 2 < W32 by omega), show W32 - 2 + 1 = W32 - 1 from by omega]
      exact cex_oob_base g (lay + 1) (by omega)
    rw [tloop_step_in_oob cexEdges g lay (W32 - 3) (W32 - 2) 0 [] (inE (W32 - 2)) [s1cex, s2cex]
      (cex_get_in (W32 - 2) (by omega)) rfl (by rw [cex_bound]; omega) hch]
    decide
  | succ m ih =>
    intro f lay hf hm
    obtain ⟨g, rfl⟩ : ∃ g, f = g + 1 := ⟨f - 1, by omega⟩
    have hw := four_le_w32
    rw [show W32 - 3 - (m + 1) = W32 - 4 - m from by omega,
      show W32 - 2 - (m + 1) = W32 - 3 - m from by omega]
    have hch : tloop cexEdges g (lay + 1) ((W32 - 3 - m) % W32) (W32 - 3 - m + 1) 0 [] =
        TR.oob [s1cex, s2cex] := by
      rw [Nat.mod_eq_of_lt (show W32 - 3 - m < W32 by omega),
        show W32 - 3 - m + 1 = W32 - 2 - m from by omega]
      exact ih g (lay + 1) (by omega) (by omega)
    rw [tloop_step_in_oob cexEdges g lay (W32 - 4 - m) (W32 - 3 - m) 0 []
      (inE (W32 - 3 - m)) [s1cex, s2cex]
      (cex_get_in (W32 - 3 - m) (by omega)) rfl (by rw [cex_bound]; omega) hch]
    decide

theorem cex_lvl0 (f lay : Nat) (hf : W32 + 2 ≤ f) :
    tloop cexEdges f lay 0 1 0 [] = TR.oob [s1cex, s2cex] := by
  obtain ⟨g, rfl⟩ : ∃ g, f = g + 1 := ⟨f - 1, by omega⟩
  have hw := four_le_w32
  have hc0 := cex_oob (W32 - 4) g (lay + 1) (by omega) (by omega)
  rw [show W32 - 3 - (W32 - 4) = 1 from by omega,
    show W32 - 2 - (W32 - 4) = 2 from by omega] at hc0
  have hch : tloop cexEdges g (lay + 1) (1 % W32) (1 + 1) 0 [] = TR.oob [s1cex, s2cex] := by
    rw [Nat.mod_eq_of_lt (show (1 : Nat) < W32 by omega)]
    exact hc0
  rw [tloop_step_in_oob cexEdges g lay 0 1 0 [] (inE 1) [s1cex, s2cex]
    (cex_get_in 1 (by omega)) rfl (by rw [cex_bound]; omega) hch]
  decide

theorem cex_run : outputProfile cexEdges (W32 + 10) = DR.oob [s1cex, s2cex] := by
  have hw := four_le_w32
  have htrav : traverse cexEdges (W32 + 9) 0 0 = TR.oob [s1cex, s2cex] := by
    obtain ⟨g, hg⟩ : ∃ g, W32 + 9 = g + 1 := ⟨W32 + 8, by omega⟩
    rw [hg, traverse_step_in cexEdges g 0 (inE 0) (cex_get_in 0 (by omega)) rfl,
      Nat.zero_mod]
    exact cex_lvl0 g 0 (by omega)
  show driver cexEdges (W32 + 10) 0 [] = DR.oob [s1cex, s2cex]
  rw [show W32 + 10 = (W32 + 9) + 1 from by omega,
    driver_step_oob cexEdges (W32 + 9) 0 [] [s1cex, s2cex] (by rw [cex_bound]; omega) htrav]
  decide

theorem monoTsB_intro (es : List Edge)
    (h : ∀ i, i + 1 < es.length → tsAt es i ≤ tsAt es (i + 1)) : MonoTs es := by
  induction es with
  | nil => rfl
  | cons a t ih =>
    cases t with
    | nil => rfl
    | cons b t2 =>
      show monoTsB (a :: b :: t2) = true
      simp only [monoTsB, Bool.and_eq_true, decide_eq_true_eq]
      constructor
      · have h0 := h 0 (by simp only [List.length_cons]; omega)
        rwa [tsAt_cons_zero, tsAt_cons_succ, tsAt_cons_zero] at h0
      · show MonoTs (b :: t2)
        refine ih (fun i hi => ?_)
        have hs := h (i + 1) (by simp only [List.length_cons] at hi ⊢; omega)
        rwa [tsAt_cons_succ, tsAt_cons_succ] at hs

theorem tsAt_of_get (es : List Edge) (i : Nat) (e : Edge) (h : es[i]? = some e) :
    tsAt es i = e.tstamp := by
  simp only [tsAt, h]

theorem cex_tsAt (i : Nat) (h : i < W32 + 3) : tsAt cexEdges i = i := by
  have hw := four_le_w32
  rcases Nat.lt_or_ge i (W32 + 1) with h1 | h1
  · rw [tsAt_of_get cexEdges i (inE i) (cex_get_in i h1)]
    rfl
  · have h2 : i = W32 + 1 ∨ i = W32 + 2 := by omega
    rcases h2 with rfl | rfl
    · rw [tsAt_of_get cexEdges (W32 + 1) (outE (W32 + 1)) cex_get_out1]
      rfl
    · rw [tsAt_of_get cexEdges (W32 + 2) (outE (W32 + 2)) cex_get_out2]
      rfl

theorem cex_mono : MonoTs cexEdges := by
  have hw := four_le_w32
  refine monoTsB_intro cexEdges (fun i hi => ?_)
  rw [cex_len] at hi
  rw [cex_tsAt i (by omega), cex_tsAt (i + 1) (by omega)]
  omega

theorem cex_bounded : BoundedTs cexEdges := by
  have hw := four_le_w32
  have hw64 := w32_add3_lt_w64
  refine List.all_eq_true.mpr (fun e he => ?_)
  simp only [decide_eq_true_eq]
  unfold cexEdges at he
  rcases List.mem_append.mp he with h1 | h1
  · obtain ⟨i, hi, rfl⟩ := List.mem_map.mp h1
    have hir := List.mem_range.mp hi
    have hts : (inE i).tstamp = i := rfl
    rw [hts]; omega
  · simp only [List.mem_cons, List.not_mem_nil, or_false] at h1
    rcases h1 with rfl | rfl
    · have hts : (outE (W32 + 1)).tstamp = W32 + 1 := rfl
      rw [hts]; omega
    · have hts : (outE (W32 + 2)).tstamp = W32 + 2 := rfl
      rw [hts]; omega

/-- C3: counterexample. On a window of 2^32 + 3 edges with monotonically
non-decreasing, bounded uint64 timestamps, the narrowing of `r->psn` to
the `uint32_t startPoint` (orbprofile.c:519) makes the profiler emit the
SubCall `s2cex`, whose exclusive cost (`myCost`) exceeds its inclusive
cost (`total`): the uint64 subtraction `myCost = total - childCost`
underflows. -/
theorem c3_uint32_wrap_counterexample :
    MonoTs cexEdges ∧ BoundedTs cexEdges ∧
      s2cex ∈ drSubs (outputProfile cexEdges (W32 + 10)) ∧
      ¬ (s2cex.myCost ≤ s2cex.total) :=
  ⟨cex_mono, cex_bounded, by rw [cex_run]; decide, by decide⟩

/-- Every address emitted by the pass-1 loop is in the final `seen` state:
the loop marks an address `seen` whenever it emits a record for it, and
never clears a flag. -/
theorem p1outer_seen (subs : List Subcall) :
    ∀ fuel i seen emitted, (∀ p ∈ emitted, p.1 ∈ seen) →
      ∀ p ∈ (p1outer subs fuel i seen emitted).1,
        p.1 ∈ (p1outer subs fuel i seen emitted).2 := by
  intro fuel
  induction fuel with
  | zero => intro i seen emitted hinv p hp; exact hinv p hp
  | succ f ih =>
    intro i seen emitted hinv
    by_cases hg : i < wsub subs.length 1
    · by_cases hd : dstAt subs (p1step subs i).1 ∈ seen
      · simp only [p1outer, if_pos hg, if_pos hd]
        exact ih ((p1step subs i).1 + 1) seen emitted hinv
      · simp only [p1outer, if_pos hg, if_neg hd]
        refine ih ((p1step subs i).1 + 1) _ _ ?_
        intro p hp
        rcases List.mem_append.mp hp with h | h
        · exact List.mem_cons_of_mem _ (hinv p h)
        · have : p = (dstAt subs (p1step subs i).1, (p1step subs i).2) := by simpa using h
          subst this
          exact List.mem_cons_self _ _
    · simp only [p1outer, if_neg hg]
      exact hinv

/-- Claim C1 (code bug in the source): for the two-edge window of
scenario S1 the driver loop bound `cdCount - 2` is `0`, so
`while ( r->psn < r->cdCount - 2 )` is false immediately, `_traverse` is
never invoked, and the profile emission produces *no* SubCall at all —
not the single `(caller=A, callee=B, 100, 100)` record the spec expects. -/
theorem c1_s1_profile_emits_no_subcall :
    outputProfile s1Edges 20 = DR.ok 0 [] ∧
    drSubs (outputProfile s1Edges 20) = [] ∧ wsub s1Edges.length 2 = 0 := by decide

/-- Claim C2: on the four-edge nested window of scenario S2 the tree
walker emits exactly two subcalls, in emission order
`(caller=B(2), callee=C(3), inclusive=20, exclusive=20)` then
`(caller=A(1), callee=B(2), inclusive=40, exclusive=20)` (`Subcall` field
order is `src = caller, dst = callee, myCost = exclusive,
total = inclusive`); the emitted caller is the `dst` of the closing edge
(index 2 resp. 3) and the callee its `src`. -/
theorem c2_s2_nested_subcalls :
    outputProfile s2Edges 20 = DR.ok 4 [⟨2, 3, 20, 20⟩, ⟨1, 2, 20, 40⟩] ∧
    (s2Edges[2]?.map Edge.dst = some 2 ∧ s2Edges[2]?.map Edge.src = some 3) ∧
    (s2Edges[3]?.map Edge.dst = some 1 ∧ s2Edges[3]?.map Edge.src = some 2) := by
  decide

/-- Claim C3 (amended): for every edge sequence of at most `2^32` edges —
so that the `uint32_t startPoint` of `_traverse` represents every
position exactly — with monotonically non-decreasing `uint64_t`
timestamps, every subcall the tree walker emits satisfies
`exclusive ≤ inclusive` (and `exclusive ≥ 0`, trivially in `Nat`): the
accumulated child cost never exceeds the enclosing timestamp span, so the
`uint64_t` subtraction `total - childCost` at orbprofile.c:553 never
underflows.  Holds for every fuel value, i.e. for every run, including
runs the source aborts on an out-of-bounds read.  Without the length
bound the claim is false of the source: see
`c3_uint32_wrap_counterexample`. -/
theorem c3_subcall_conservation (es : List Edge) (hm : MonoTs es)
    (hb : BoundedTs es) (hlen : es.length ≤ W32) (fuel : Nat) :
    ∀ s ∈ drSubs (outputProfile es fuel), s.myCost ≤ s.total ∧ 0 ≤ s.myCost := by
  intro s hs
  exact ⟨driver_spec es hm hb hlen fuel 0 [] allOK_nil s hs, Nat.zero_le _⟩

/-- Witness for `c3_subcall_conservation` at the concrete S2 window. -/
theorem c3_subcall_conservation_witness :
    MonoTs s2Edges ∧ BoundedTs s2Edges ∧ s2Edges.length ≤ W32 ∧
      (Subcall.myCost ⟨2, 3, 20, 20⟩ ≤ Subcall.total ⟨2, 3, 20, 20⟩ ∧
        0 ≤ Subcall.myCost ⟨2, 3, 20, 20⟩) :=
  ⟨by decide, by decide, by decide,
    c3_subcall_conservation s2Edges (by decide) (by decide) (by decide) 20
      ⟨2, 3, 20, 20⟩ (by decide)⟩

/-- Claim C10 (code bug in the source): for a window with `cdCount = 1`
(which the driver runs, since `cdCount ≥ 1`), the `uint64_t` loop bound
`cdCount - 2` wraps to `2^64 - 1`, the driver loop therefore runs, and
the `while ( r->calls[r->psn].in )` condition of `_traverse` reads
`calls[1]` — index `≥ cdCount`, an out-of-bounds access, contradicting
the claim that all reads stay below `cdCount`. -/
theorem c10_oob_single_edge :
    1 ≤ oneEdge.length ∧ 0 < wsub oneEdge.length 2 ∧
    outputProfile oneEdge 20 = DR.oob [] := by decide

/-- Claim C4 (code bug in the source): pass 1 of `_dumpProfile` does not
sum each maximal equal-`dst` run once.  On the sorted two-element run
`[(src 0, dst 1, my 5), (src 2, dst 1, my 7)]` the loop emits
`myCost = 10` — `myCost` is initialised to `sub[0].myCost = 5` and the
inner loop adds `sub[i++].myCost` *before* the increment, double-counting
the first element and never adding the last — whereas the claimed
run sum is `5 + 7 = 12`.  (With a singleton final run the outer bound
`i < subPsn - 1` additionally skips that subcall entirely.) -/
theorem c4_pass1_run_sum_mismatch :
    dumpSorted subsSameCallee = subsSameCallee ∧
    pass1Emissions subsSameCallee = [(1, 10)] ∧
    pass1Emissions subsSameCallee ≠ [(1, 5 + 7)] := by decide

/-- Claim C5 (code bug in the source): when a dot file is configured,
`main` runs `_outputDot` before `_outputProfile`, and `_outputDot` qsorts
the shared `r->calls` array in place (orbprofile.c:282 and 316), so the
profile traversal no longer sees the edges in append order: on the
two-edge window `c5Edges` the walker reads `[eaEdge, ezEdge]` instead of
the appended `[ezEdge, eaEdge]`.  Without a dot file the order is
preserved. -/
theorem c5_dot_reorders_edge_sequence :
    profileInput true c5Edges = [eaEdge, ezEdge] ∧
    profileInput true c5Edges ≠ c5Edges ∧
    profileInput false c5Edges = c5Edges := by decide

/-- Claim C6 (code bug in the source): the arrow pass of `_outputDot`
initialises `cnt = 0` and increments it only on each *additional* edge of
a run, so a maximal run of `k` identical `(srcFn, dstFn)` edges is
emitted with `label = k - 1`: scenario S5 produces
`foo -> bar [label=2 ...]` and `foo -> baz [label=0 ...]`, not the
`label=3` / `label=1` the spec expects. -/
theorem c6_arrow_labels_off_by_one :
    arrowLines s5Edges = [("foo", "bar", 2), ("foo", "baz", 0)] ∧
    arrowLines s5Edges ≠ [("foo", "bar", 3), ("foo", "baz", 1)] := by decide

/-- Claim C7 counterexample: the `seen` flags are *not* all false at the
start of pass 2 — `_dumpProfile` resets them once, before pass 1 only.
On `subsSameCallee`, pass 1 marks address `1` seen, and it is still seen
when pass 2 begins. -/
theorem c7_seen_not_reset_before_pass2 :
    seenAtPass2Start subsSameCallee ≠ [] ∧
    1 ∈ seenAtPass2Start subsSameCallee := by decide

/-- Claim C7 (amended): the `seen` flags are reset once, at the start of
`_dumpProfile` before pass 1 (the empty initial `seen` state below);
pass 2 begins with the flags exactly as pass 1 left them (the second
component of the pass-1 run), so every callee address announced during
pass 1 is still marked seen when pass 2 begins. -/
theorem c7_seen_persists_into_pass2 (subs : List Subcall) (fuel d c : Nat)
    (h : (d, c) ∈ (p1outer subs fuel 0 [] []).1) :
    d ∈ (p1outer subs fuel 0 [] []).2 :=
  p1outer_seen subs fuel 0 [] [] (by intro p hp; cases hp) (d, c) h

/-- Witness for `c7_seen_persists_into_pass2`, instantiated at the pass-1
run that `_dumpProfile` performs on `subsSameCallee`. -/
theorem c7_seen_persists_into_pass2_witness :
    (1, 10) ∈ pass1Emissions subsSameCallee ∧
    1 ∈ seenAtPass2Start subsSameCallee :=
  ⟨by decide, by
    have h2 := c7_seen_persists_into_pass2 (dumpSorted subsSameCallee)
      (subsSameCallee.length + 1) 1 10 (by decide)
    have h3 : (p1outer (dumpSorted subsSameCallee)
        (subsSameCallee.length + 1) 0 [] []).2 = seenAtPass2Start subsSameCallee := by
      decide
    exact h3 ▸ h2⟩

/-- Claim C8 counterexample: on `EV_CH_EX_ENTRY` the recorder does *not*
switch the cursor's current function to the sentinel — the assignment to
`currentFunction` is commented out in the source; it is the current
*filename* that becomes `"INTERRUPT"`. -/
theorem c8_function_not_switched :
    (exEntryStep opMain).currentFunction = some "main" ∧
    (exEntryStep opMain).currentFunction ≠ some "INTERRUPT" ∧
    (exEntryStep opMain).currentFilename = some "INTERRUPT" := by decide

/-- Claim C8 (amended): on `EV_CH_EX_ENTRY` the recorder switches the
cursor's current *filename* to the sentinel `"INTERRUPT"`, leaves the
current function unchanged, and sets `last_was_jump`; consequently any
edge appended by the next processed atom carries `is_entry = true`. -/
theorem c8_interrupt_sentinel_on_filename (op : OpConstruct)
    (sym : Nat → Option NameEntry) (ic : Nat) (calls : List Edge) (d : Nat) :
    exEntryStep op =
      { op with currentFilename := some "INTERRUPT", lastWasJump := true } ∧
    (exEntryStep op).currentFunction = op.currentFunction ∧
    ∀ e ∈ ((atomStep sym ic (exEntryStep op) calls d).2.1).drop calls.length,
      e.inFlag = true := by
  refine ⟨rfl, rfl, ?_⟩
  intro e he
  cases hs : sym (exEntryStep op).workingAddr with
  | none =>
    simp only [atomStep, hs] at he
    rw [List.drop_length] at he
    cases he
  | some n =>
    simp only [atomStep, hs] at he
    by_cases hch :
        (!((exEntryStep op).currentFilename == some n.filename &&
           (exEntryStep op).currentFunction == some n.function)) = true
    · rw [if_pos hch, List.drop_left] at he
      have : e = { tstamp := ic
                   srcFile := (exEntryStep op).currentFilename.getD "Entry"
                   srcFn := (exEntryStep op).currentFunction.getD "Entry"
                   dstFile := n.filename
                   dstFn := n.function
                   src := (exEntryStep op).lastAddr
                   dst := (exEntryStep op).workingAddr
                   inFlag := (exEntryStep op).lastWasJump } := by simpa using he
      subst this
      rfl
    · rw [if_neg hch, List.drop_length] at he
      cases he

/-- Witness for `c8_interrupt_sentinel_on_filename`. -/
theorem c8_interrupt_sentinel_on_filename_witness :
    exEntryStep opMain = ⟨some "INTERRUPT", some "main", 4096, 4094, true⟩ ∧
    Edge.inFlag ⟨7, "INTERRUPT", "main", "irq.c", "handler", 4094, 4096, true⟩ = true :=
  ⟨(c8_interrupt_sentinel_on_filename opMain symIrq 7 [] 0).1,
    (c8_interrupt_sentinel_on_filename opMain symIrq 7 [] 0).2.2
      ⟨7, "INTERRUPT", "main", "irq.c", "handler", 4094, 4096, true⟩ (by decide)⟩

/-- Claim C9: for an atom whose working address has no symbol
(`SymbolLookup` fails), the recorder appends no edge and only advances
the working address by exactly 2 (as a `uint32_t`); the current file,
current function, `lastAddr` and `lastWasJump` are all unchanged. -/
theorem c9_no_symbol_step (sym : Nat → Option NameEntry) (ic : Nat)
    (op : OpConstruct) (calls : List Edge) (d : Nat)
    (h : sym op.workingAddr = none) :
    atomStep sym ic op calls d =
      ({ op with workingAddr := (op.workingAddr + 2) % W32 }, calls, d / 2) := by
  simp only [atomStep, h]

/-- Witness for `c9_no_symbol_step`. -/
theorem c9_no_symbol_step_witness :
    symNone opPlain.workingAddr = none ∧
    atomStep symNone 5 opPlain [] 3 = (⟨some "a.c", some "f", 102, 98, false⟩, [], 1) :=
  ⟨rfl, c9_no_symbol_step symNone 5 opPlain [] 3 rfl⟩

end Orb
